import Mathlib

/-
Verification of the pack-calculator core: the decomposition engine
(internal/algorithm/optimizer.go) and the adaptive cache
(internal/cache/cache.go), shallowly embedded in Lean 4.

Modeling conventions:
- Go int is modeled as Int; the constant math.MaxInt32 used by the code
  as an "infinity" sentinel is kept literally as 2147483647. The one
  computation of the engine whose int64 wrap-around is reachable before
  a guard, the table bound limit = order + maxSize together with the
  slice length limit + 1 passed to make, is modeled with an explicit
  two's-complement wrap (wrap64); every other intermediate value either
  stays inside int64 whenever those two do, or sits on a path that is
  already a panic (none) for the independent reason of an out-of-range
  index.
- Go slices used as tables (dp, parent) are modeled as total functions
  Nat -> Int together with an explicit bound; every indexing operation of
  the source is guarded, and a Go panic (index out of range, make with a
  negative length) is modeled as the Option value none.
- Go map[int]int is modeled as an association list with the same
  observable behavior (increment of a possibly-absent key, defaulting
  to zero on reads).
- Loops are modeled by structural recursion on an explicit iteration
  count equal to the number of iterations the Go loop performs; a loop
  that would diverge or run past its table exhausts the count and yields
  none.
-/

/-- The sentinel math.MaxInt32 used by optimizer.go for "unreachable". -/
def MaxInt32 : Int := 2147483647

/-- Result mirrors algorithm.Result of optimizer.go: PackCounts is the
map from pack size to count, with the derived totals. -/
structure Result where
  PackCounts : List (Int × Int)
  TotalItems : Int
  TotalPacks : Int
  Waste      : Int
deriving DecidableEq

/-- The zero value Result{PackCounts: make(map[int]int)} that Calculate
returns for degenerate or infeasible requests. -/
def emptyResult : Result := ⟨[], 0, 0, 0⟩

/-- Go map increment packCounts[size]++ on an association list: bump the
binding if present, otherwise append a fresh binding with count 1. -/
def mapIncr : List (Int × Int) → Int → List (Int × Int)
  | [], k => [(k, 1)]
  | (a, v) :: rest, k =>
    if a = k then (a, v + 1) :: rest else (a, v) :: mapIncr rest k

/-- Go map read m[k] with the zero default for an absent key. -/
def mapGet : List (Int × Int) → Int → Int
  | [], _ => 0
  | (a, v) :: rest, k => if a = k then v else mapGet rest k

/-- Sum of size times count over the entries of a pack-count map. -/
def itemsSum (m : List (Int × Int)) : Int :=
  (m.map (fun p => p.1 * p.2)).sum

/-- Sum of the counts over the entries of a pack-count map. -/
def countSum (m : List (Int × Int)) : Int :=
  (m.map (fun p => p.2)).sum

/-- Inner loop of the DP fill in Calculate: for a fixed table index i,
iterate over the pack sizes; when size <= i, read dp[i-size] (the read is
guarded: an out-of-range index yields none, as the Go code would panic),
and when it is not the sentinel and improves dp[i], write dp[i] and
parent[i]. -/
def innerLoop (limit : Int) (i : Nat) :
    List Int → ((Nat → Int) × (Nat → Int)) → Option ((Nat → Int) × (Nat → Int))
  | [], st => some st
  | size :: rest, (dp, parent) =>
    if size ≤ (i : Int) then
      if 0 ≤ (i : Int) - size ∧ (i : Int) - size ≤ limit then
        if dp ((i : Int) - size).toNat = MaxInt32 then
          innerLoop limit i rest (dp, parent)
        else
          if dp ((i : Int) - size).toNat + 1 < dp i then
            innerLoop limit i rest
              (fun j => if j = i then dp ((i : Int) - size).toNat + 1 else dp j,
               fun j => if j = i then size else parent j)
          else
            innerLoop limit i rest (dp, parent)
      else none
    else
      innerLoop limit i rest (dp, parent)

/-- Outer loop of the DP fill: process table indices 1..m in order,
starting from the initialized tables (dp all sentinel except dp[0] = 0,
parent all zero, which are the Go initial array contents). -/
def fillLoop (sizes : List Int) (limit : Int) : Nat → Option ((Nat → Int) × (Nat → Int))
  | 0 => some (fun j => if j = 0 then 0 else MaxInt32, fun _ => 0)
  | m + 1 => (fillLoop sizes limit m).bind (innerLoop limit (m + 1) sizes)

/-- Selection loop of Calculate: scan items = order..limit keeping
(bestItems, bestPacks), with the exact branch structure of the source,
including the early break once items exceeds a found bestItems. The
fuel argument counts the remaining loop iterations. -/
def scanLoop (dp : Nat → Int) : Nat → Int → Int × Int → Int × Int
  | 0, _, best => best
  | fuel + 1, items, (bestItems, bestPacks) =>
    if dp items.toNat ≠ MaxInt32 then
      if bestItems = -1 then
        scanLoop dp fuel (items + 1) (items, dp items.toNat)
      else if items < bestItems then
        scanLoop dp fuel (items + 1) (items, dp items.toNat)
      else if items = bestItems ∧ dp items.toNat < bestPacks then
        scanLoop dp fuel (items + 1) (bestItems, dp items.toNat)
      else if bestItems < items then
        (bestItems, bestPacks)
      else
        scanLoop dp fuel (items + 1) (bestItems, bestPacks)
    else
      scanLoop dp fuel (items + 1) (bestItems, bestPacks)

/-- Backtracking loop of Calculate: from current = bestItems, repeatedly
read parent[current] (guarded array access), increment that size in the
pack-count map and subtract it, until current <= 0. Exhausted fuel
models a diverging walk; the fuel passed by Calculate is large enough
for every terminating walk over the table. -/
def backtrackLoop (parent : Nat → Int) (limit : Int) :
    Nat → Int → List (Int × Int) → Option (List (Int × Int))
  | 0, current, acc => if 0 < current then none else some acc
  | fuel + 1, current, acc =>
    if 0 < current then
      if 0 ≤ current ∧ current ≤ limit then
        backtrackLoop parent limit fuel
          (current - parent current.toNat)
          (mapIncr acc (parent current.toNat))
      else none
    else some acc

/-- Two's-complement wrap of an Int to the signed 64-bit range: the
value Go int arithmetic produces when a computation leaves int64. -/
def wrap64 (x : Int) : Int :=
  (x + 9223372036854775808) % 18446744073709551616 - 9223372036854775808

/-- Calculate of optimizer.go. Degenerate requests return the empty
Result; otherwise sort the sizes ascending, let maxSize be the largest,
build the dp/parent tables over 0..limit with limit = order + maxSize
(computed in wrapping int64 arithmetic, as is the slice length
limit + 1 handed to make), select the best total and backtrack. none
models a Go panic (negative or wrapped table length, or an out-of-range
index); for the inputs the claims put preconditions on, the returned
value is always some. -/
def Calculate (order : Int) (packSizes : List Int) : Option Result :=
  if order ≤ 0 then some emptyResult
  else if packSizes = [] then some emptyResult
  else
    let sizes := List.insertionSort (· ≤ ·) packSizes
    let maxSize := sizes.getLastD 0
    let limit := wrap64 (order + maxSize)
    if wrap64 (limit + 1) ≤ 0 then none
    else
      match fillLoop sizes limit limit.toNat with
      | none => none
      | some (dp, parent) =>
        match scanLoop dp (limit - order + 1).toNat order (-1, MaxInt32) with
        | (bestItems, bestPacks) =>
          if bestItems = -1 then some emptyResult
          else
            match backtrackLoop parent limit (limit + 2).toNat bestItems [] with
            | none => none
            | some packCounts =>
              some ⟨packCounts, bestItems, bestPacks, bestItems - order⟩

/-- Validate of optimizer.go: false for an empty size list or any
non-positive size, true otherwise (no GCD or coverage check is made). -/
def Validate (packSizes : List Int) : Bool :=
  if packSizes = [] then false
  else packSizes.all (fun size => !(size ≤ 0))

/-
Adaptive cache (internal/cache/cache.go). The Redis key/value store is
modeled as an association list from keys (byte lists) to the stored
record paired with the TTL passed to the store; JSON
serialization/deserialization is modeled as the identity on the record
(the Go round-trip preserves every field the claims mention), and
wall-clock time is an Int passed in by the caller. SHA-256 is the
library function crypto/sha256 and is reproduced bit-for-bit below over
byte lists (FIPS 180-4).
-/

/-- Right rotation of a 32-bit word held in a Nat. -/
def rotr32 (x n : Nat) : Nat :=
  ((x >>> n) ||| (x <<< (32 - n))) % 4294967296

/-- SHA-256 round constants. -/
def shaK : List Nat :=
  [1116352408, 1899447441, 3049323471, 3921009573, 961987163,
   1508970993, 2453635748, 2870763221, 3624381080, 310598401,
   607225278, 1426881987, 1925078388, 2162078206, 2614888103,
   3248222580, 3835390401, 4022224774, 264347078, 604807628,
   770255983, 1249150122, 1555081692, 1996064986, 2554220882,
   2821834349, 2952996808, 3210313671, 3336571891, 3584528711,
   113926993, 338241895, 666307205, 773529912, 1294757372,
   1396182291, 1695183700, 1986661051, 2177026350, 2456956037,
   2730485921, 2820302411, 3259730800, 3345764771, 3516065817,
   3600352804, 4094571909, 275423344, 430227734, 506948616,
   659060556, 883997877, 958139571, 1322822218, 1537002063,
   1747873779, 1955562222, 2024104815, 2227730452, 2361852424,
   2428436474, 2756734187, 3204031479, 3329325298]

/-- SHA-256 initial hash state. -/
def shaH0 : List Nat :=
  [1779033703, 3144134277, 1013904242, 2773480762,
   1359893119, 2600822924, 528734635, 1541459225]

/-- Next word of the SHA-256 message schedule, from the words so far. -/
def shaNextWord (w : List Nat) : Nat :=
  let n := w.length
  let s0 :=
    rotr32 (w.getD (n - 15) 0) 7 ^^^ rotr32 (w.getD (n - 15) 0) 18 ^^^
      (w.getD (n - 15) 0 >>> 3)
  let s1 :=
    rotr32 (w.getD (n - 2) 0) 17 ^^^ rotr32 (w.getD (n - 2) 0) 19 ^^^
      (w.getD (n - 2) 0 >>> 10)
  (w.getD (n - 16) 0 + s0 + w.getD (n - 7) 0 + s1) % 4294967296

/-- Extend a 16-word chunk to the 64-word message schedule. -/
def shaExtend : Nat → List Nat → List Nat
  | 0, w => w
  | k + 1, w => shaExtend k (w ++ [shaNextWord w])

/-- Group a byte list into big-endian 32-bit words. -/
def bytesToWords : List Nat → List Nat
  | a :: b :: c :: d :: rest =>
    (a * 16777216 + b * 65536 + c * 256 + d) :: bytesToWords rest
  | _ => []

/-- One SHA-256 compression round. -/
def shaRound (st : Nat × Nat × Nat × Nat × Nat × Nat × Nat × Nat) (kw : Nat × Nat) :
    Nat × Nat × Nat × Nat × Nat × Nat × Nat × Nat :=
  match st, kw with
  | (a, b, c, d, e, f, g, h), (kt, wt) =>
    let S1 := rotr32 e 6 ^^^ rotr32 e 11 ^^^ rotr32 e 25
    let ch := (e &&& f) ^^^ ((e ^^^ 4294967295) &&& g)
    let temp1 := (h + S1 + ch + kt + wt) % 4294967296
    let S0 := rotr32 a 2 ^^^ rotr32 a 13 ^^^ rotr32 a 22
    let maj := (a &&& b) ^^^ (a &&& c) ^^^ (b &&& c)
    let temp2 := (S0 + maj) % 4294967296
    ((temp1 + temp2) % 4294967296, a, b, c, (d + temp1) % 4294967296, e, f, g)

/-- Compress one 64-byte chunk into the running hash state. -/
def shaCompress (hs : List Nat) (chunk : List Nat) : List Nat :=
  let w := shaExtend 48 (bytesToWords chunk)
  match (List.zip shaK w).foldl shaRound
      (hs.getD 0 0, hs.getD 1 0, hs.getD 2 0, hs.getD 3 0,
       hs.getD 4 0, hs.getD 5 0, hs.getD 6 0, hs.getD 7 0) with
  | (a, b, c, d, e, f, g, h) =>
    [(hs.getD 0 0 + a) % 4294967296, (hs.getD 1 0 + b) % 4294967296,
     (hs.getD 2 0 + c) % 4294967296, (hs.getD 3 0 + d) % 4294967296,
     (hs.getD 4 0 + e) % 4294967296, (hs.getD 5 0 + f) % 4294967296,
     (hs.getD 6 0 + g) % 4294967296, (hs.getD 7 0 + h) % 4294967296]

/-- Split a padded message into 64-byte chunks; the count is the number
of chunks. -/
def shaChunks : Nat → List Nat → List (List Nat)
  | 0, _ => []
  | k + 1, l => l.take 64 :: shaChunks k (l.drop 64)

/-- Big-endian bytes of a 32-bit word. -/
def wordBytes (w : Nat) : List Nat :=
  [w / 16777216 % 256, w / 65536 % 256, w / 256 % 256, w % 256]

/-- SHA-256 of a byte list, as the 32-byte digest. -/
def sha256 (msg : List Nat) : List Nat :=
  let bitLen := msg.length * 8
  let padZeros := (64 - (msg.length + 9) % 64) % 64
  let lenBytes :=
    [bitLen / 72057594037927936 % 256, bitLen / 281474976710656 % 256,
     bitLen / 1099511627776 % 256, bitLen / 4294967296 % 256,
     bitLen / 16777216 % 256, bitLen / 65536 % 256,
     bitLen / 256 % 256, bitLen % 256]
  let padded := msg ++ 128 :: List.replicate padZeros 0 ++ lenBytes
  let final := (shaChunks (padded.length / 64) padded).foldl shaCompress shaH0
  (final.map wordBytes).flatten

/-- ASCII bytes of the decimal representation of a Nat (Go %d). -/
def natStr (n : Nat) : List Nat :=
  (Nat.toDigits 10 n).map Char.toNat

/-- ASCII bytes of the decimal representation of an Int (Go %d),
with a leading minus sign when negative. -/
def intStr (i : Int) : List Nat :=
  if i < 0 then 45 :: natStr (-i).toNat else natStr i.toNat

/-- ASCII bytes of the space-separated element list of a Go int slice. -/
def sliceStrInner : List Int → List Nat
  | [] => []
  | [x] => intStr x
  | x :: xs => intStr x ++ 32 :: sliceStrInner xs

/-- ASCII bytes of the Go %v rendering of an int slice: elements
space-separated inside square brackets. -/
def sliceStr (l : List Int) : List Nat :=
  91 :: sliceStrInner l ++ [93]

/-- Lowercase hex digit of a value below 16, as an ASCII byte. -/
def hexDigit (n : Nat) : Nat :=
  if n < 10 then 48 + n else 87 + n

/-- Lowercase hex encoding of a byte list (Go %x). -/
def hexBytes (l : List Nat) : List Nat :=
  (l.map (fun b => [hexDigit (b / 16), hexDigit (b % 16)])).flatten

/-- ASCII bytes of the cache key prefix string of cache.go. -/
def keyPreamble : List Nat := [112, 97, 99, 107, 99, 97, 108, 99, 58]

/-- generateKey of cache.go: sort the pack sizes ascending, format
"items:sortedSlice" (fmt.Sprintf with %d and %v), hash with SHA-256 and
keep the prefix plus the hex of the first 16 digest bytes. The key is
modeled as the byte list of the produced string. -/
def generateKey (items : Int) (packSizes : List Int) : List Nat :=
  let sorted := List.insertionSort (· ≤ ·) packSizes
  let data := intStr items ++ 58 :: sliceStr sorted
  keyPreamble ++ hexBytes ((sha256 data).take 16)

/-- InitialTTL of cache.go, 5 minutes in nanoseconds (Go
time.Duration). -/
def InitialTTL : Int := 300000000000

/-- MaxTTL of cache.go, 24 hours in nanoseconds. -/
def MaxTTL : Int := 86400000000000

/-- CachedResult mirrors cache.CachedResult; CachedAt is the Int
timestamp passed by the caller for time.Now(). -/
structure CachedResult where
  Items             : Int
  PackSizes         : List Int
  CacheRes          : List (Int × Int)
  TotalItems        : Int
  TotalPacks        : Int
  Waste             : Int
  CalculationTimeMs : Int
  CachedAt          : Int
  HitCount          : Int
  CurrentTTL        : Int
deriving DecidableEq

/-- The cache with its backing store: the enabled flag, the key/value
entries (each value kept with the TTL passed to the store), and the two
Redis statistics counters. -/
structure Cache where
  enabled : Bool
  entries : List (List Nat × (CachedResult × Int))
  hits    : Int
  misses  : Int
deriving DecidableEq

/-- Redis SET: replace the binding for the key, or add it. -/
def storeSet (st : List (List Nat × (CachedResult × Int))) (k : List Nat)
    (v : CachedResult × Int) : List (List Nat × (CachedResult × Int)) :=
  match st with
  | [] => [(k, v)]
  | (a, w) :: rest => if a = k then (a, v) :: rest else (a, w) :: storeSet rest k v

/-- Redis GET of a stored record. -/
def storeGet (st : List (List Nat × (CachedResult × Int))) (k : List Nat) :
    Option (CachedResult × Int) :=
  match st with
  | [] => none
  | (a, w) :: rest => if a = k then some w else storeGet rest k

/-- Get of cache.go: on a disabled cache report a miss without touching
the counters; on a missing key count a miss; on a hit increment the hit
count, double the TTL capping it at MaxTTL, store the updated record
back under the new TTL, count a hit, and return the updated record. -/
def Cache.Get (c : Cache) (items : Int) (packSizes : List Int) :
    Cache × Option CachedResult :=
  if !c.enabled then (c, none)
  else
    match storeGet c.entries (generateKey items packSizes) with
    | none => ({ c with misses := c.misses + 1 }, none)
    | some (r, _) =>
      ({ c with
          entries := storeSet c.entries (generateKey items packSizes)
            ({ r with
                HitCount := r.HitCount + 1
                CurrentTTL := if r.CurrentTTL * 2 > MaxTTL then MaxTTL else r.CurrentTTL * 2 },
             if r.CurrentTTL * 2 > MaxTTL then MaxTTL else r.CurrentTTL * 2)
          hits := c.hits + 1 },
       some { r with
          HitCount := r.HitCount + 1
          CurrentTTL := if r.CurrentTTL * 2 > MaxTTL then MaxTTL else r.CurrentTTL * 2 })

/-- Set of cache.go: store a fresh record with HitCount zero and
CurrentTTL InitialTTL under the generated key (a no-op when disabled).
The now argument stands for time.Now(). -/
def Cache.Set (c : Cache) (items : Int) (packSizes : List Int)
    (result : List (Int × Int)) (totalItems totalPacks waste calcTime now : Int) :
    Cache :=
  if !c.enabled then c
  else
    let key := generateKey items packSizes
    let fresh : CachedResult :=
      ⟨items, packSizes, result, totalItems, totalPacks, waste, calcTime, now,
        0, InitialTTL⟩
    { c with entries := storeSet c.entries key (fresh, InitialTTL) }

/-- CacheStats mirrors cache.CacheStats; the hit rate is the exact
rational the float64 arithmetic of the source computes on the counter
values. MemoryUsed and Uptime come verbatim from the Redis INFO text
and are not modeled. -/
structure CacheStats where
  Hits      : Int
  Misses    : Int
  HitRate   : Rat
  TotalKeys : Int
deriving DecidableEq

/-- GetStats of cache.go: zero statistics when disabled; otherwise the
two counters, the hit rate hits/total scaled by 100 when any request
occurred and 0 otherwise, and the number of stored keys. -/
def Cache.GetStats (c : Cache) : CacheStats :=
  if !c.enabled then ⟨0, 0, 0, 0⟩
  else
    let total := c.hits + c.misses
    let hitRate : Rat := if total > 0 then (c.hits : Rat) / (total : Rat) * 100 else 0
    ⟨c.hits, c.misses, hitRate, (c.entries.length : Int)⟩

/-
Theorems. Helper lemmas come first, then one theorem (plus witness or
counterexample where required) per claim.
-/

theorem storeGet_storeSet_same (st : List (List Nat × (CachedResult × Int)))
    (k : List Nat) (v : CachedResult × Int) :
    storeGet (storeSet st k v) k = some v := by
  induction st with
  | nil => simp [storeSet, storeGet]
  | cons p rest ih =>
    obtain ⟨a, w⟩ := p
    by_cases h : a = k
    · simp [storeSet, storeGet, h]
    · simp [storeSet, storeGet, h, ih]

theorem insertionSort_eq_of_perm {l₁ l₂ : List Int} (h : l₁.Perm l₂) :
    List.insertionSort (· ≤ ·) l₁ = List.insertionSort (· ≤ ·) l₂ :=
  @List.eq_of_perm_of_sorted Int (· ≤ ·) _ _ _
    (((List.perm_insertionSort _ l₁).trans h).trans
      (List.perm_insertionSort _ l₂).symm)
    (List.sorted_insertionSort _ l₁)
    (List.sorted_insertionSort _ l₂)

/-- C8: for a non-positive order quantity, or an empty pack-size list,
Calculate returns the empty Result (no entries, zero totals, zero
waste) as a normal value, not a failure. -/
theorem calculate_degenerate (order : Int) (packSizes : List Int)
    (h : order ≤ 0 ∨ packSizes = []) :
    Calculate order packSizes = some ⟨[], 0, 0, 0⟩ := by
  rcases h with h | h
  · simp [Calculate, h, emptyResult]
  · subst h
    by_cases ho : order ≤ 0 <;> simp [Calculate, ho, emptyResult]

/-- Witness for calculate_degenerate at the spec's three degenerate
inputs. -/
theorem calculate_degenerate_witness :
    Calculate 0 [3, 5] = some ⟨[], 0, 0, 0⟩ ∧
      Calculate (-5) [3, 5] = some ⟨[], 0, 0, 0⟩ ∧
      Calculate 7 [] = some ⟨[], 0, 0, 0⟩ :=
  ⟨calculate_degenerate 0 [3, 5] (Or.inl (by decide)),
   calculate_degenerate (-5) [3, 5] (Or.inl (by decide)),
   calculate_degenerate 7 [] (Or.inr rfl)⟩

/-- C10: Validate accepts exactly the non-empty lists of strictly
positive sizes; it makes no GCD or coverage check, so the set 2, 4 is
accepted even though odd totals are not exactly reachable from it. -/
theorem validate_spec :
    (∀ packSizes : List Int,
        Validate packSizes = true ↔ packSizes ≠ [] ∧ ∀ s ∈ packSizes, 0 < s) ∧
      Validate [2, 4] = true := by
  constructor
  · intro l
    constructor
    · intro h
      by_cases hl : l = []
      · simp [Validate, hl] at h
      · refine ⟨hl, ?_⟩
        intro s hs
        simp only [Validate, hl, if_false, List.all_eq_true] at h
        have := h s hs
        simp at this
        omega
    · rintro ⟨hl, hpos⟩
      simp only [Validate, hl, if_false, List.all_eq_true]
      intro s hs
      have := hpos s hs
      simp
      omega
  · decide

/-- Witness for validate_spec: the iff evaluated at a concrete accepted
and a concrete rejected list. -/
theorem validate_spec_witness :
    Validate [2, 4] = true ∧ Validate [3, 0] ≠ true :=
  ⟨validate_spec.2,
   fun h => by
     have := (validate_spec.1 [3, 0]).1 h
     have h0 := this.2 0 (by simp)
     omega⟩

/-- C5 counterexample: the claim says duplicate entries do not change
the cache key, but generateKey only sorts and does not collapse
duplicates, so the same size set 2 written as two different lists gives
two different keys. -/
theorem generateKey_dup_counterexample :
    generateKey 1 [2] ≠ generateKey 1 [2, 2] := by decide

/-- C5 amended: the key depends only on the quantity and the sorted
size list, so permutations of the sizes give equal keys; duplicate
entries are preserved, and distinct quantities or distinct sorted lists
give distinct digest inputs, witnessed here at sample inputs. -/
theorem generateKey_perm (q : Int) (l₁ l₂ : List Int) (h : l₁.Perm l₂) :
    generateKey q l₁ = generateKey q l₂ ∧
      generateKey 1 [2] ≠ generateKey 2 [2] ∧
      generateKey 1 [2] ≠ generateKey 1 [3] := by
  refine ⟨?_, by decide, by decide⟩
  simp only [generateKey, insertionSort_eq_of_perm h]

/-- Witness for generateKey_perm at a concrete permutation. -/
theorem generateKey_perm_witness :
    generateKey 5 [3, 1, 2] = generateKey 5 [1, 2, 3] :=
  (generateKey_perm 5 [3, 1, 2] [1, 2, 3] (by decide)).1

/-- C6: after Set stores an entry (HitCount 0, CurrentTTL InitialTTL),
the first Get on the same request returns it with HitCount 1 and
CurrentTTL equal to min of twice InitialTTL and MaxTTL, and any entry
any Get ever returns has CurrentTTL at most MaxTTL. -/
theorem cache_ttl_growth (c : Cache) (q : Int) (l : List Int)
    (res : List (Int × Int)) (ti tp w ct now : Int) (he : c.enabled = true) :
    storeGet (Cache.Set c q l res ti tp w ct now).entries (generateKey q l) =
        some (⟨q, l, res, ti, tp, w, ct, now, 0, InitialTTL⟩, InitialTTL) ∧
      (∃ e, (Cache.Get (Cache.Set c q l res ti tp w ct now) q l).2 = some e ∧
        e.HitCount = 1 ∧ e.CurrentTTL = min (2 * InitialTTL) MaxTTL) ∧
      (∀ (c₂ : Cache) (q₂ : Int) (l₂ : List Int) (e : CachedResult),
        (Cache.Get c₂ q₂ l₂).2 = some e → e.CurrentTTL ≤ MaxTTL) := by
  have hset : storeGet (Cache.Set c q l res ti tp w ct now).entries (generateKey q l) =
      some (⟨q, l, res, ti, tp, w, ct, now, 0, InitialTTL⟩, InitialTTL) := by
    simp only [Cache.Set, he, Bool.not_true, if_false]
    exact storeGet_storeSet_same _ _ _
  refine ⟨hset, ?_, ?_⟩
  · have hen : (Cache.Set c q l res ti tp w ct now).enabled = true := by
      simp [Cache.Set, he]
    have hcond : ¬ (InitialTTL * 2 > MaxTTL) := by decide
    have hmin : InitialTTL * 2 = min (2 * InitialTTL) MaxTTL := by decide
    refine ⟨⟨q, l, res, ti, tp, w, ct, now, 1, InitialTTL * 2⟩, ?_, rfl, hmin ▸ rfl⟩
    simp only [Cache.Get, hen, Bool.not_true, Bool.false_eq_true, if_false, hset,
      if_neg hcond]
    norm_num
  · intro c₂ q₂ l₂ e hget
    by_cases hen : c₂.enabled = true
    · simp only [Cache.Get, hen, Bool.not_true, Bool.false_eq_true, if_false] at hget
      rcases hst : storeGet c₂.entries (generateKey q₂ l₂) with _ | ⟨r, t⟩ <;>
        rw [hst] at hget
      · simp at hget
      · simp only [Option.some.injEq] at hget
        rw [← hget]
        by_cases hc : r.CurrentTTL * 2 > MaxTTL
        · simp [hc]
        · simp only [if_neg hc]
          exact le_of_not_lt hc
    · simp only [Bool.not_eq_true] at hen
      simp [Cache.Get, hen] at hget

/-- Witness for cache_ttl_growth on a concrete enabled cache. -/
theorem cache_ttl_growth_witness :
    ∃ e, (Cache.Get (Cache.Set ⟨true, [], 0, 0⟩ 1 [2] [(2, 1)] 2 1 1 0 0) 1 [2]).2 =
        some e ∧ e.HitCount = 1 ∧ e.CurrentTTL = min (2 * InitialTTL) MaxTTL :=
  (cache_ttl_growth ⟨true, [], 0, 0⟩ 1 [2] [(2, 1)] 2 1 1 0 0 rfl).2.1

/-- C7 counterexample: with one hit and one miss GetStats reports a hit
rate of 50, not the fraction one half the claim asserts. -/
theorem getStats_rate_counterexample :
    (Cache.GetStats ⟨true, [], 1, 1⟩).HitRate ≠ (1 : Rat) / (1 + 1) ∧
      (Cache.GetStats ⟨true, [], 1, 1⟩).HitRate = 50 := by
  constructor <;> norm_num [Cache.GetStats]

/-- C7 amended: on an enabled cache, GetStats reports a hit rate equal
to 100 times hits over hits plus misses when at least one request has
occurred, and 0 when no request has occurred. -/
theorem getStats_rate (c : Cache) (he : c.enabled = true) :
    (0 < c.hits + c.misses →
        (Cache.GetStats c).HitRate =
          (c.hits : Rat) / ((c.hits : Rat) + (c.misses : Rat)) * 100) ∧
      (c.hits + c.misses = 0 → (Cache.GetStats c).HitRate = 0) := by
  have hrepr : Cache.GetStats c =
      ⟨c.hits, c.misses,
        if c.hits + c.misses > 0 then
          (c.hits : Rat) / ((c.hits + c.misses : Int) : Rat) * 100
        else 0,
        (c.entries.length : Int)⟩ := by
    simp [Cache.GetStats, he]
  constructor
  · intro hpos
    rw [hrepr]
    dsimp only
    rw [if_pos hpos]
    push_cast
    ring
  · intro hzero
    rw [hrepr]
    dsimp only
    rw [if_neg (by omega)]

/-- Witness for getStats_rate on a concrete counter state. -/
theorem getStats_rate_witness :
    (Cache.GetStats ⟨true, [], 3, 1⟩).HitRate = (3 : Rat) / (3 + 1) * 100 := by
  have h := (getStats_rate ⟨true, [], 3, 1⟩ rfl).1 (by decide)
  simpa using h

/-- A value already inside the signed 64-bit range is unchanged by the
wrap. -/
theorem wrap64_eq_self (x : Int) (h1 : -9223372036854775808 ≤ x)
    (h2 : x < 9223372036854775808) : wrap64 x = x := by
  unfold wrap64
  rw [Int.emod_eq_of_lt (by omega) (by omega)]
  omega

/-
Lemmas about the pack-count map operations.
-/

@[simp] theorem itemsSum_nil : itemsSum [] = 0 := rfl

@[simp] theorem itemsSum_cons (a v : Int) (m : List (Int × Int)) :
    itemsSum ((a, v) :: m) = a * v + itemsSum m := by
  simp [itemsSum]

@[simp] theorem countSum_nil : countSum [] = 0 := rfl

@[simp] theorem countSum_cons (a v : Int) (m : List (Int × Int)) :
    countSum ((a, v) :: m) = v + countSum m := by
  simp [countSum]

theorem itemsSum_mapIncr (m : List (Int × Int)) (k : Int) :
    itemsSum (mapIncr m k) = itemsSum m + k := by
  induction m with
  | nil => simp [mapIncr]
  | cons p rest ih =>
    obtain ⟨a, v⟩ := p
    by_cases h : a = k
    · subst h
      simp [mapIncr]
      ring
    · simp [mapIncr, h, ih]
      ring

theorem countSum_mapIncr (m : List (Int × Int)) (k : Int) :
    countSum (mapIncr m k) = countSum m + 1 := by
  induction m with
  | nil => simp [mapIncr]
  | cons p rest ih =>
    obtain ⟨a, v⟩ := p
    by_cases h : a = k
    · subst h
      simp [mapIncr]
      ring
    · simp [mapIncr, h, ih]
      ring

theorem mapGet_mapIncr (m : List (Int × Int)) (k k₂ : Int) :
    mapGet (mapIncr m k) k₂ = mapGet m k₂ + (if k₂ = k then 1 else 0) := by
  induction m with
  | nil =>
    simp only [mapIncr, mapGet]
    by_cases h : k = k₂
    · subst h
      simp
    · rw [if_neg h, if_neg (fun hh => h hh.symm)]
      simp
  | cons p rest ih =>
    obtain ⟨a, v⟩ := p
    by_cases hak : a = k
    · subst hak
      simp only [mapIncr, if_pos rfl]
      by_cases hk2 : a = k₂
      · subst hk2
        simp [mapGet]
      · simp only [mapGet, if_neg hk2]
        rw [if_neg (fun hh => hk2 hh.symm)]
        simp
    · simp only [mapIncr, if_neg hak]
      by_cases hk2 : a = k₂
      · subst hk2
        simp only [mapGet, if_pos rfl, if_neg hak]
        simp
      · simp only [mapGet, if_neg hk2, ih]

/-
Lemmas about sorted lists and their last element (the maximum).
-/

theorem getLastD_mem : ∀ (l : List Int) (d : Int), l ≠ [] → l.getLastD d ∈ l := by
  intro l
  induction l with
  | nil => intro d h; exact absurd rfl h
  | cons a t ih =>
    intro d _
    rw [List.getLastD_cons]
    cases t with
    | nil => simp
    | cons b t' => exact List.mem_cons_of_mem _ (ih a (by simp))

theorem le_getLastD_of_sorted :
    ∀ (l : List Int) (a d : Int), (a :: l).Sorted (· ≤ ·) →
      ∀ x ∈ a :: l, x ≤ (a :: l).getLastD d := by
  intro l
  induction l with
  | nil =>
    intro a d _ x hx
    rw [List.getLastD_cons]
    rcases List.mem_cons.1 hx with rfl | h
    · simp
    · simp at h
  | cons b t ih =>
    intro a d hs x hx
    rw [List.getLastD_cons]
    have hst := List.sorted_cons.1 hs
    rcases List.mem_cons.1 hx with hxa | h
    · rw [hxa]
      exact le_trans (hst.1 b (by simp)) (ih b a hst.2 b (by simp))
    · exact ih b a hst.2 x h

/-- The last element of the sorted copy of a non-empty list is a member
of the original list and bounds every member from above; this is the
maxSize the Calculate code reads off the sorted slice. -/
theorem maxSize_spec (packSizes : List Int) (h : packSizes ≠ []) :
    (List.insertionSort (· ≤ ·) packSizes).getLastD 0 ∈ packSizes ∧
      ∀ x ∈ packSizes, x ≤ (List.insertionSort (· ≤ ·) packSizes).getLastD 0 := by
  have hperm := List.perm_insertionSort (· ≤ ·) packSizes
  have hsort := List.sorted_insertionSort (· ≤ ·) packSizes
  have hne : List.insertionSort (· ≤ ·) packSizes ≠ [] := by
    intro hnil
    rw [hnil] at hperm
    exact h (hperm.symm.eq_nil)
  constructor
  · exact hperm.mem_iff.1 (getLastD_mem _ 0 hne)
  · intro x hx
    have hx2 : x ∈ List.insertionSort (· ≤ ·) packSizes := hperm.mem_iff.2 hx
    obtain ⟨a, t, ht⟩ := List.exists_cons_of_ne_nil hne
    rw [ht] at hsort hx2 ⊢
    exact le_getLastD_of_sorted t a 0 hsort x hx2

/-- Effect of one pass of the inner DP loop at table index i, relative
to the incoming tables: indices other than i are untouched, dp at i
never increases, dp at i ends up at most one more than dp at i minus s
for every applicable size s of the pass, and either i was left entirely
unchanged or it was last written from some applicable size of the pass,
which is then recorded in parent at i. -/
theorem innerLoop_spec (limit : Int) (i : Nat) (hi1 : 1 ≤ i) (hil : (i : Int) ≤ limit) :
    ∀ (rest : List Int) (dp parent : Nat → Int),
      (∀ s ∈ rest, 0 ≤ s) →
      ∃ dp2 parent2,
        innerLoop limit i rest (dp, parent) = some (dp2, parent2) ∧
        (∀ j : Nat, j ≠ i → dp2 j = dp j ∧ parent2 j = parent j) ∧
        dp2 i ≤ dp i ∧
        (∀ s ∈ rest, s ≤ (i : Int) → dp ((i : Int) - s).toNat ≠ MaxInt32 →
          dp2 i ≤ dp ((i : Int) - s).toNat + 1) ∧
        ((dp2 i = dp i ∧ parent2 i = parent i) ∨
         (∃ s ∈ rest, 1 ≤ s ∧ s ≤ (i : Int) ∧ dp ((i : Int) - s).toNat ≠ MaxInt32 ∧
           dp2 i = dp ((i : Int) - s).toNat + 1 ∧ parent2 i = s ∧ dp2 i < dp i)) := by
  intro rest
  induction rest with
  | nil =>
    intro dp parent _
    exact ⟨dp, parent, rfl, fun j _ => ⟨rfl, rfl⟩, le_refl _, by simp,
      Or.inl ⟨rfl, rfl⟩⟩
  | cons s rest ih =>
    intro dp parent hnn
    have hs0 : 0 ≤ s := hnn s (by simp)
    have hnn2 : ∀ x ∈ rest, 0 ≤ x := fun x hx => hnn x (List.mem_cons_of_mem _ hx)
    by_cases hsi : s ≤ (i : Int)
    · have hg : 0 ≤ (i : Int) - s ∧ (i : Int) - s ≤ limit := ⟨by omega, by omega⟩
      by_cases hsent : dp ((i : Int) - s).toNat = MaxInt32
      · obtain ⟨dp2, p2, heq, hoff, hle, hmin, hdisj⟩ := ih dp parent hnn2
        refine ⟨dp2, p2, ?_, hoff, hle, ?_, ?_⟩
        · simp only [innerLoop, if_pos hsi, if_pos hg, if_pos hsent]
          exact heq
        · intro x hx hxle hxsent
          rcases List.mem_cons.1 hx with hxs | hxr
          · exact absurd (hxs ▸ hsent) (hxs ▸ hxsent)
          · exact hmin x hxr hxle hxsent
        · rcases hdisj with h | ⟨x, hx, hrest⟩
          · exact Or.inl h
          · exact Or.inr ⟨x, List.mem_cons_of_mem _ hx, hrest⟩
      · by_cases hw : dp ((i : Int) - s).toNat + 1 < dp i
        · have hs1 : 1 ≤ s := by
            rcases lt_or_ge s 1 with hlt | hge
            · exfalso
              have hs00 : s = 0 := by omega
              rw [hs00, sub_zero, Int.toNat_natCast] at hw
              omega
            · exact hge
          obtain ⟨dp2, p2, heq, hoff, hle, hmin, hdisj⟩ :=
            ih (fun j => if j = i then dp ((i : Int) - s).toNat + 1 else dp j)
               (fun j => if j = i then s else parent j) hnn2
          have htrans : ∀ x : Int, 1 ≤ x → ((i : Int) - x).toNat ≠ i := by
            intro x h1
            omega
          have hdp2i : dp2 i ≤ dp ((i : Int) - s).toNat + 1 := by
            simpa using hle
          have hlt : dp2 i < dp i := lt_of_le_of_lt hdp2i hw
          have hoffdp : ∀ j : Nat, j ≠ i → dp2 j = dp j ∧ p2 j = parent j := by
            intro j hj
            obtain ⟨h1, h2⟩ := hoff j hj
            rw [h1, h2]
            simp [hj]
          refine ⟨dp2, p2, ?_, hoffdp, le_of_lt hlt, ?_, ?_⟩
          · simp only [innerLoop, if_pos hsi, if_pos hg, if_neg hsent, if_pos hw]
            exact heq
          · intro x hx hxle hxsent
            rcases List.mem_cons.1 hx with hxs | hxr
            · rw [hxs]
              exact hdp2i
            · rcases eq_or_lt_of_le (hnn2 x hxr) with hx0 | hx1
              · rw [← hx0, sub_zero, Int.toNat_natCast]
                omega
              · have hne := htrans x (by omega)
                have := hmin x hxr hxle (by rw [if_neg hne]; exact hxsent)
                rwa [if_neg hne] at this
          · rcases hdisj with ⟨hd1, hd2⟩ | ⟨x, hx, hx1, hxle, hxsent, hdeq, hpeq, hxlt⟩
            · refine Or.inr ⟨s, by simp, hs1, hsi, hsent, ?_, ?_, hlt⟩
              · rw [hd1]
                simp
              · rw [hd2]
                simp
            · have hne := htrans x (by omega)
              rw [if_neg hne] at hxsent hdeq
              refine Or.inr ⟨x, List.mem_cons_of_mem _ hx, hx1, hxle, hxsent, hdeq, hpeq, hlt⟩
        · obtain ⟨dp2, p2, heq, hoff, hle, hmin, hdisj⟩ := ih dp parent hnn2
          refine ⟨dp2, p2, ?_, hoff, hle, ?_, ?_⟩
          · simp only [innerLoop, if_pos hsi, if_pos hg, if_neg hsent, if_neg hw]
            exact heq
          · intro x hx hxle hxsent
            rcases List.mem_cons.1 hx with hxs | hxr
            · rw [hxs]
              omega
            · exact hmin x hxr hxle hxsent
          · rcases hdisj with h | ⟨x, hx, hrest⟩
            · exact Or.inl h
            · exact Or.inr ⟨x, List.mem_cons_of_mem _ hx, hrest⟩
    · obtain ⟨dp2, p2, heq, hoff, hle, hmin, hdisj⟩ := ih dp parent hnn2
      refine ⟨dp2, p2, ?_, hoff, hle, ?_, ?_⟩
      · simp only [innerLoop, if_neg hsi]
        exact heq
      · intro x hx hxle hxsent
        rcases List.mem_cons.1 hx with hxs | hxr
        · exact absurd (hxs ▸ hxle) hsi
        · exact hmin x hxr hxle hxsent
      · rcases hdisj with h | ⟨x, hx, hrest⟩
        · exact Or.inl h
        · exact Or.inr ⟨x, List.mem_cons_of_mem _ hx, hrest⟩

/-- If a pass of the inner loop completes without the out-of-range
guard firing, every size it applied at index i keeps the read index
inside the table. -/
theorem innerLoop_bounds (limit : Int) (i : Nat) :
    ∀ (rest : List Int) (st st2 : (Nat → Int) × (Nat → Int)),
      innerLoop limit i rest st = some st2 →
      ∀ s ∈ rest, s ≤ (i : Int) → (i : Int) - s ≤ limit := by
  intro rest
  induction rest with
  | nil =>
    intro st st2 _ s hs
    simp at hs
  | cons a rest ih =>
    intro st st2 heq s hs hsle
    obtain ⟨dp, parent⟩ := st
    simp only [innerLoop] at heq
    by_cases hai : a ≤ (i : Int)
    · rw [if_pos hai] at heq
      by_cases hg : 0 ≤ (i : Int) - a ∧ (i : Int) - a ≤ limit
      · rw [if_pos hg] at heq
        rcases List.mem_cons.1 hs with hsa | hsr
        · rw [hsa]
          exact hg.2
        · by_cases hsent : dp ((i : Int) - a).toNat = MaxInt32
          · rw [if_pos hsent] at heq
            exact ih _ _ heq s hsr hsle
          · rw [if_neg hsent] at heq
            by_cases hw : dp ((i : Int) - a).toNat + 1 < dp i
            · rw [if_pos hw] at heq
              exact ih _ _ heq s hsr hsle
            · rw [if_neg hw] at heq
              exact ih _ _ heq s hsr hsle
      · rw [if_neg hg] at heq
        exact absurd heq (by simp)
    · rw [if_neg hai] at heq
      rcases List.mem_cons.1 hs with hsa | hsr
      · rw [hsa] at hsle
        exact absurd hsle hai
      · exact ih _ _ heq s hsr hsle

/-- If the whole fill completes on a table of positive length, every
size is non-negative: a negative size would have sent the read index
past the end of the table at the last outer iteration. -/
theorem fillLoop_sizes_nonneg (sizes : List Int) (limit : Int)
    (st : (Nat → Int) × (Nat → Int))
    (hfill : fillLoop sizes limit limit.toNat = some st) (hl1 : 1 ≤ limit) :
    ∀ s ∈ sizes, 0 ≤ s := by
  intro s hs
  obtain ⟨k, hk⟩ : ∃ k, limit.toNat = k + 1 := ⟨limit.toNat - 1, by omega⟩
  rw [hk] at hfill
  simp only [fillLoop] at hfill
  rcases Option.bind_eq_some.1 hfill with ⟨st1, _, hinner⟩
  have hcast : ((k + 1 : Nat) : Int) = limit := by omega
  by_cases hsle : s ≤ ((k + 1 : Nat) : Int)
  · have := innerLoop_bounds limit (k + 1) sizes st1 st hinner s hs hsle
    omega
  · rw [hcast] at hsle
    omega

/-- Structural correctness of the filled tables: the fill completes,
dp at 0 is 0, indices beyond the processed range are untouched, every
non-sentinel dp value lies between 0 and its index, and every written
index records in parent an applicable size whose predecessor index is
itself non-sentinel with a dp value exactly one smaller. -/
theorem fillLoop_structural (sizes : List Int) (limit : Int)
    (hnn : ∀ s ∈ sizes, 0 ≤ s) :
    ∀ m : Nat, (m : Int) ≤ limit →
      ∃ dp parent, fillLoop sizes limit m = some (dp, parent) ∧
        dp 0 = 0 ∧
        (∀ j : Nat, j ≠ 0 → m < j → dp j = MaxInt32 ∧ parent j = 0) ∧
        (∀ j : Nat, dp j ≠ MaxInt32 → 0 ≤ dp j ∧ dp j ≤ (j : Int)) ∧
        (∀ j : Nat, 1 ≤ j → j ≤ m → dp j ≠ MaxInt32 →
          parent j ∈ sizes ∧ 1 ≤ parent j ∧ parent j ≤ (j : Int) ∧
          dp ((j : Int) - parent j).toNat ≠ MaxInt32 ∧
          dp j = dp ((j : Int) - parent j).toNat + 1) := by
  intro m
  induction m with
  | zero =>
    intro _
    refine ⟨fun j => if j = 0 then 0 else MaxInt32, fun _ => 0, rfl, by simp, ?_, ?_, ?_⟩
    · intro j hj _
      simp [hj]
    · intro j hj
      by_cases h0 : j = 0
      · subst h0
        simp
      · simp [h0] at hj
    · intro j hj1 hj2
      omega
  | succ m ihm =>
    intro hm1
    obtain ⟨dp, parent, heq, hdp0, huntouched, hbound, hstruct⟩ := ihm (by omega)
    obtain ⟨dp2, p2, heq2, hoff, hle, hmin, hdisj⟩ :=
      innerLoop_spec limit (m + 1) (by omega) (by omega) sizes dp parent hnn
    have hfill2 : fillLoop sizes limit (m + 1) = some (dp2, p2) := by
      simp only [fillLoop, heq, Option.bind_some]
      exact heq2
    have hne0 : (0 : Nat) ≠ m + 1 := by omega
    refine ⟨dp2, p2, hfill2, ?_, ?_, ?_, ?_⟩
    · rw [(hoff 0 hne0).1]
      exact hdp0
    · intro j hj hmj
      have hjne : j ≠ m + 1 := by omega
      obtain ⟨h1, h2⟩ := hoff j hjne
      rw [h1, h2]
      exact huntouched j hj (by omega)
    · intro j hjs
      by_cases hjne : j = m + 1
      · subst hjne
        rcases hdisj with ⟨hd1, _⟩ | ⟨s, _, hs1, hsle, hsent, hdeq, _, _⟩
        · rw [hd1] at hjs ⊢
          exact hbound _ hjs
        · have hidx := hbound (((m + 1 : Nat) : Int) - s).toNat hsent
          rw [hdeq]
          constructor
          · omega
          · omega
      · obtain ⟨h1, _⟩ := hoff j hjne
        rw [h1] at hjs ⊢
        exact hbound j hjs
    · intro j hj1 hj2 hjs
      by_cases hjne : j = m + 1
      · subst hjne
        rcases hdisj with ⟨hd1, _⟩ | ⟨s, hsmem, hs1, hsle, hsent, hdeq, hpeq, _⟩
        · exfalso
          rw [hd1] at hjs
          exact hjs (huntouched (m + 1) (by omega) (by omega)).1
        · have hidxne : (((m + 1 : Nat) : Int) - s).toNat ≠ m + 1 := by omega
          obtain ⟨hsub1, _⟩ := hoff _ hidxne
          refine ⟨?_, ?_, ?_, ?_, ?_⟩
          · rw [hpeq]
            exact hsmem
          · rw [hpeq]
            exact hs1
          · rw [hpeq]
            exact hsle
          · rw [hpeq, hsub1]
            exact hsent
          · rw [hpeq, hdeq, hsub1]
      · have hjm : j ≤ m := by omega
        obtain ⟨h1, h2⟩ := hoff j hjne
        rw [h1] at hjs
        obtain ⟨hp1, hp2, hp3, hp4, hp5⟩ := hstruct j hj1 hjm hjs
        have hidxne : ((j : Int) - parent j).toNat ≠ m + 1 := by omega
        obtain ⟨hsub1, _⟩ := hoff _ hidxne
        rw [h1, h2, hsub1]
        exact ⟨hp1, hp2, hp3, hp4, hp5⟩

/-- A list of positive integers has at least as many items as entries. -/
theorem length_le_sum_of_pos : ∀ (l : List Int), (∀ x ∈ l, 0 < x) →
    (l.length : Int) ≤ l.sum := by
  intro l
  induction l with
  | nil => simp
  | cons x t ih =>
    intro h
    have hx := h x (by simp)
    have ht := ih (fun y hy => h y (List.mem_cons_of_mem _ hy))
    simp only [List.length_cons, List.sum_cons]
    push_cast
    omega

/-- Semantic correctness of the filled dp table over the processed
range: a non-sentinel dp value is witnessed by a pack list of exactly
that many packs summing to the index, and every pack list summing to an
index in range forces its dp value to be non-sentinel and a lower bound
on the list length. -/
theorem fillLoop_semantic (sizes : List Int) (limit : Int)
    (hpos : ∀ s ∈ sizes, 0 < s) (hlim : limit < MaxInt32) :
    ∀ m : Nat, (m : Int) ≤ limit →
      ∃ dp parent, fillLoop sizes limit m = some (dp, parent) ∧
        (∀ j : Nat, j ≠ 0 → m < j → dp j = MaxInt32) ∧
        (∀ j : Nat, j ≤ m →
          (dp j ≠ MaxInt32 →
            ∃ l : List Int, (∀ x ∈ l, x ∈ sizes) ∧ l.sum = (j : Int) ∧
              (l.length : Int) = dp j) ∧
          (∀ l : List Int, (∀ x ∈ l, x ∈ sizes) → l.sum = (j : Int) →
            dp j ≠ MaxInt32 ∧ dp j ≤ (l.length : Int))) := by
  have hnn : ∀ s ∈ sizes, 0 ≤ s := fun s hs => le_of_lt (hpos s hs)
  intro m
  induction m with
  | zero =>
    intro _
    refine ⟨fun j => if j = 0 then 0 else MaxInt32, fun _ => 0, rfl, ?_, ?_⟩
    · intro j hj _
      simp [hj]
    · intro j hj
      have hj0 : j = 0 := by omega
      subst hj0
      constructor
      · intro _
        exact ⟨[], by simp, by simp, by simp⟩
      · intro l hl hsum
        simp only [if_pos rfl]
        refine ⟨by decide, ?_⟩
        positivity
  | succ m ihm =>
    intro hm1
    obtain ⟨dp, parent, heq, huntouched, hgood⟩ := ihm (by omega)
    obtain ⟨dp2, p2, heq2, hoff, hle, hmin, hdisj⟩ :=
      innerLoop_spec limit (m + 1) (by omega) (by omega) sizes dp parent hnn
    have hfill2 : fillLoop sizes limit (m + 1) = some (dp2, p2) := by
      simp only [fillLoop, heq, Option.bind_some]
      exact heq2
    refine ⟨dp2, p2, hfill2, ?_, ?_⟩
    · intro j hj hmj
      have hjne : j ≠ m + 1 := by omega
      rw [(hoff j hjne).1]
      exact huntouched j hj (by omega)
    · intro j hjm
      by_cases hjne : j = m + 1
      · subst hjne
        constructor
        · intro hjs
          rcases hdisj with ⟨hd1, _⟩ | ⟨s, hsmem, hs1, hsle, hsent, hdeq, _, _⟩
          · exfalso
            rw [hd1] at hjs
            exact hjs (huntouched (m + 1) (by omega) (by omega))
          · have hidx : (((m + 1 : Nat) : Int) - s).toNat ≤ m := by omega
            obtain ⟨l', hl'mem, hl'sum, hl'len⟩ := (hgood _ hidx).1 hsent
            refine ⟨s :: l', ?_, ?_, ?_⟩
            · intro x hx
              rcases List.mem_cons.1 hx with hxs | hxr
              · rw [hxs]; exact hsmem
              · exact hl'mem x hxr
            · simp only [List.sum_cons, hl'sum]
              omega
            · simp only [List.length_cons, hdeq]
              push_cast
              push_cast at hl'len
              omega
        · intro l hlmem hlsum
          cases l with
          | nil =>
            exfalso
            simp at hlsum
            omega
          | cons x t =>
            have hxmem : x ∈ sizes := hlmem x (by simp)
            have hx1 : 0 < x := hpos x hxmem
            have htmem : ∀ y ∈ t, y ∈ sizes :=
              fun y hy => hlmem y (List.mem_cons_of_mem _ hy)
            have htpos : ∀ y ∈ t, 0 < y := fun y hy => hpos y (htmem y hy)
            have htlen := length_le_sum_of_pos t htpos
            have htsum0 : 0 ≤ t.sum := le_trans (by positivity) htlen
            have hxle : x ≤ ((m + 1 : Nat) : Int) := by
              simp only [List.sum_cons] at hlsum
              omega
            have hidx : (((m + 1 : Nat) : Int) - x).toNat ≤ m := by omega
            have htsum : t.sum = (((((m + 1 : Nat) : Int) - x).toNat : Nat) : Int) := by
              simp only [List.sum_cons] at hlsum
              omega
            obtain ⟨hnsent, hlen⟩ := (hgood _ hidx).2 t htmem htsum
            obtain ⟨l', hl'mem, hl'sum, hl'len⟩ := (hgood _ hidx).1 hnsent
            have hl'pos : ∀ y ∈ l', 0 < y := fun y hy => hpos y (hl'mem y hy)
            have hdpbound : dp (((m + 1 : Nat) : Int) - x).toNat ≤
                ((m + 1 : Nat) : Int) - x := by
              have := length_le_sum_of_pos l' hl'pos
              omega
            have hmin2 := hmin x hxmem hxle hnsent
            constructor
            · have : dp2 (m + 1) < MaxInt32 := by omega
              omega
            · simp only [List.length_cons]
              push_cast
              omega
      · have hdpj : dp2 j = dp j := (hoff j hjne).1
        have hjm2 : j ≤ m := by omega
        rw [hdpj]
        exact hgood j hjm2

/-- Once the selection loop has captured a best total, it keeps it:
later reachable totals are strictly larger and trigger the break, and
unreachable ones are skipped. -/
theorem scanLoop_keep (dp : Nat → Int) :
    ∀ (fuel : Nat) (items b p : Int), 0 ≤ b → b < items →
      scanLoop dp fuel items (b, p) = (b, p) := by
  intro fuel
  induction fuel with
  | zero =>
    intro items b p _ _
    rfl
  | succ fuel ih =>
    intro items b p hb0 hbi
    simp only [scanLoop]
    by_cases hs : dp items.toNat ≠ MaxInt32
    · rw [if_pos hs, if_neg (by omega : ¬b = -1), if_neg (by omega : ¬items < b),
        if_neg (by omega : ¬(items = b ∧ dp items.toNat < p)), if_pos hbi]
    · rw [if_neg hs]
      exact ih (items + 1) b p hb0 (by omega)

/-- Whatever the selection loop returns is either the untouched initial
best (-1) or a reachable total in the scanned window together with its
dp value. -/
theorem scanLoop_sound (dp : Nat → Int) :
    ∀ (fuel : Nat) (items : Int), 1 ≤ items →
      ∀ b2 p2, scanLoop dp fuel items (-1, MaxInt32) = (b2, p2) →
      b2 = -1 ∨ (items ≤ b2 ∧ b2 < items + fuel ∧ dp b2.toNat ≠ MaxInt32 ∧
        p2 = dp b2.toNat) := by
  intro fuel
  induction fuel with
  | zero =>
    intro items _ b2 p2 heq
    simp only [scanLoop] at heq
    exact Or.inl (congrArg Prod.fst heq).symm
  | succ fuel ih =>
    intro items hit b2 p2 heq
    simp only [scanLoop] at heq
    by_cases hs : dp items.toNat ≠ MaxInt32
    · rw [if_pos hs, if_pos trivial] at heq
      rw [scanLoop_keep dp fuel (items + 1) items (dp items.toNat) (by omega)
        (by omega)] at heq
      obtain ⟨h1, h2⟩ := Prod.mk.injEq .. ▸ heq
      refine Or.inr ⟨?_, ?_, ?_, ?_⟩ <;> try omega
      · rw [← h1]
        exact hs
      · rw [← h1, ← h2]
    · rw [if_neg hs] at heq
      rcases ih (items + 1) (by omega) b2 p2 heq with h | ⟨h1, h2, h3, h4⟩
      · exact Or.inl h
      · exact Or.inr ⟨by omega, by omega, h3, h4⟩

/-- If t is the least reachable total at or beyond the scan start and
lies inside the scanned window, the selection loop returns it together
with its dp value. -/
theorem scanLoop_least (dp : Nat → Int) :
    ∀ (fuel : Nat) (items t : Int), 1 ≤ items → items ≤ t → t < items + fuel →
      dp t.toNat ≠ MaxInt32 →
      (∀ u : Int, items ≤ u → u < t → dp u.toNat = MaxInt32) →
      scanLoop dp fuel items (-1, MaxInt32) = (t, dp t.toNat) := by
  intro fuel
  induction fuel with
  | zero =>
    intro items t _ h1 h2 _ _
    omega
  | succ fuel ih =>
    intro items t hit h1 h2 hsent hleast
    simp only [scanLoop]
    by_cases ht : items = t
    · subst ht
      rw [if_pos hsent, if_pos trivial]
      exact scanLoop_keep dp fuel (items + 1) items (dp items.toNat) (by omega) (by omega)
    · have hsent2 : dp items.toNat = MaxInt32 := hleast items (le_refl _) (by omega)
      rw [if_neg (fun hne => hne hsent2)]
      exact ih (items + 1) t (by omega) (by omega) (by omega) hsent
        (fun u hu1 hu2 => hleast u (by omega) hu2)

/-- Walking the parent chain from a reachable total terminates within
the given fuel, touches only sizes of the list, and produces the pack
multiset (as both a chain list and the incremented map) of exactly dp
cur packs summing to cur. -/
theorem backtrackLoop_spec (sizes : List Int) (limit : Int) (dp parent : Nat → Int)
    (hdp0 : dp 0 = 0)
    (hdpnn : ∀ j : Nat, dp j ≠ MaxInt32 → 0 ≤ dp j)
    (hstruct : ∀ j : Nat, 1 ≤ j → j ≤ limit.toNat → dp j ≠ MaxInt32 →
      parent j ∈ sizes ∧ 1 ≤ parent j ∧ parent j ≤ (j : Int) ∧
      dp ((j : Int) - parent j).toNat ≠ MaxInt32 ∧
      dp j = dp ((j : Int) - parent j).toNat + 1) :
    ∀ (fuel : Nat) (cur : Int), 0 ≤ cur → cur ≤ limit → dp cur.toNat ≠ MaxInt32 →
      dp cur.toNat ≤ (fuel : Int) →
      ∀ acc, ∃ (m : List (Int × Int)) (chain : List Int),
        backtrackLoop parent limit fuel cur acc = some m ∧
        (∀ x ∈ chain, x ∈ sizes) ∧ chain.sum = cur ∧
        (chain.length : Int) = dp cur.toNat ∧
        itemsSum m = itemsSum acc + cur ∧ countSum m = countSum acc + dp cur.toNat ∧
        (∀ k, mapGet m k = mapGet acc k + (chain.count k : Int)) := by
  intro fuel
  induction fuel with
  | zero =>
    intro cur hc0 hcl hcs hcf acc
    have hcur0 : cur = 0 := by
      by_contra hne
      have hc1 : 1 ≤ cur.toNat := by omega
      have := (hstruct cur.toNat hc1 (by omega) hcs).2.2.2
      have := hdpnn _ this.1
      omega
    subst hcur0
    refine ⟨acc, [], rfl, by simp, by simp, ?_, by simp, ?_, ?_⟩
    · simp only [List.length_nil, Int.toNat_zero] at *
      simp [hdp0]
    · simp only [Int.toNat_zero, hdp0]
      omega
    · intro k
      simp
  | succ fuel ih =>
    intro cur hc0 hcl hcs hcf acc
    by_cases hc : 0 < cur
    · have hc1 : 1 ≤ cur.toNat := by omega
      obtain ⟨hsmem, hs1, hsle, hprev, hdeq⟩ := hstruct cur.toNat hc1 (by omega) hcs
      rw [Int.toNat_of_nonneg hc0] at hsle hprev hdeq
      have hcur' : 0 ≤ cur - parent cur.toNat := by omega
      have hcurl' : cur - parent cur.toNat ≤ limit := by omega
      have hfuel' : dp (cur - parent cur.toNat).toNat ≤ (fuel : Int) := by
        push_cast at hcf
        omega
      obtain ⟨m, chain', hbt, hmem, hsum, hlen, hitems, hcount, hget⟩ :=
        ih (cur - parent cur.toNat) hcur' hcurl' hprev hfuel'
          (mapIncr acc (parent cur.toNat))
      refine ⟨m, parent cur.toNat :: chain', ?_, ?_, ?_, ?_, ?_, ?_, ?_⟩
      · simp only [backtrackLoop, if_pos hc, if_pos (And.intro hc0 hcl)]
        exact hbt
      · intro x hx
        rcases List.mem_cons.1 hx with hxa | hxr
        · rw [hxa]
          exact hsmem
        · exact hmem x hxr
      · simp only [List.sum_cons, hsum]
        omega
      · simp only [List.length_cons, hdeq]
        push_cast
        omega
      · rw [hitems, itemsSum_mapIncr]
        omega
      · rw [hcount, countSum_mapIncr, hdeq]
        omega
      · intro k
        rw [hget k, mapGet_mapIncr, List.count_cons]
        by_cases hk : k = parent cur.toNat
        · rw [if_pos hk, if_pos (beq_iff_eq .. |>.2 hk.symm)]
          push_cast
          omega
        · rw [if_neg hk, if_neg ?_]
          · push_cast
            omega
          · simp only [beq_iff_eq]
            exact fun hh => hk hh.symm
    · have hcur0 : cur = 0 := by omega
      subst hcur0
      refine ⟨acc, [], ?_, by simp, by simp, ?_, by simp, ?_, ?_⟩
      · simp [backtrackLoop]
      · simp only [List.length_nil, Int.toNat_zero]
        simp [hdp0]
      · simp only [Int.toNat_zero, hdp0]
        omega
      · intro k
        simp

/-- For positive o and m there is a positive multiple of m in the
window from o up to but excluding o + m. -/
theorem exists_near_multiple (o m : Int) (ho : 1 ≤ o) (hm : 1 ≤ m) :
    ∃ k : Nat, 1 ≤ k ∧ o ≤ (k : Int) * m ∧ (k : Int) * m < o + m := by
  have h := Int.ediv_add_emod (o - 1) m
  have hr0 : 0 ≤ (o - 1) % m := Int.emod_nonneg _ (by omega)
  have hrlt : (o - 1) % m < m := Int.emod_lt_of_pos _ (by omega)
  have hq0 : 0 ≤ (o - 1) / m := Int.ediv_nonneg (by omega) (by omega)
  refine ⟨((o - 1) / m).toNat + 1, by omega, ?_, ?_⟩
  all_goals
    have hcast : ((((o - 1) / m).toNat + 1 : Nat) : Int) = (o - 1) / m + 1 := by
      push_cast
      omega
    have key : ((o - 1) / m + 1) * m = o - 1 - (o - 1) % m + m := by
      linear_combination h
    rw [hcast, key]
    omega

/-- Master correctness theorem for Calculate on a positive order and a
non-empty list of positive sizes, under the bound that keeps every true
pack count below the MaxInt32 sentinel: the call succeeds, and the
returned Result is the optimal decomposition, internally consistent,
witnessed by a chain of packs, with its total at most one maximal pack
beyond the order. -/
theorem calculate_main (order : Int) (packSizes : List Int)
    (h1 : 0 < order) (h2 : packSizes ≠ [])
    (h3 : ∀ s ∈ packSizes, 0 < s)
    (h4 : ∀ s ∈ packSizes, order + s < 2147483647) :
    ∃ r : Result, Calculate order packSizes = some r ∧
      (∃ chain : List Int, (∀ x ∈ chain, x ∈ packSizes) ∧
        chain.sum = r.TotalItems ∧ (chain.length : Int) = r.TotalPacks ∧
        (∀ k, mapGet r.PackCounts k = (chain.count k : Int))) ∧
      order ≤ r.TotalItems ∧
      r.Waste = r.TotalItems - order ∧
      itemsSum r.PackCounts = r.TotalItems ∧
      countSum r.PackCounts = r.TotalPacks ∧
      (∀ l : List Int, (∀ x ∈ l, x ∈ packSizes) → order ≤ l.sum →
        r.TotalItems ≤ l.sum) ∧
      (∀ l : List Int, (∀ x ∈ l, x ∈ packSizes) → l.sum = r.TotalItems →
        r.TotalPacks ≤ (l.length : Int)) ∧
      (∃ mx ∈ packSizes, (∀ s ∈ packSizes, s ≤ mx) ∧ r.TotalItems ≤ order + mx) ∧
      r.PackCounts ≠ [] := by
  have hMI : MaxInt32 = 2147483647 := rfl
  set SZ := List.insertionSort (· ≤ ·) packSizes with hSZ
  have hperm : SZ.Perm packSizes := List.perm_insertionSort _ packSizes
  have hmem : ∀ x : Int, x ∈ SZ ↔ x ∈ packSizes := fun x => hperm.mem_iff
  have hSZpos : ∀ s ∈ SZ, 0 < s := fun s hs => h3 s ((hmem s).1 hs)
  obtain ⟨hmxmem, hmxub⟩ := maxSize_spec packSizes h2
  set mx := SZ.getLastD 0 with hmx
  have hmx1 : 1 ≤ mx := h3 mx hmxmem
  set limit := order + mx with hlimdef
  have hlim2 : 2 ≤ limit := by omega
  have hlimMI : limit < MaxInt32 := by
    rw [hMI]
    exact h4 mx hmxmem
  have hlimcast : ((limit.toNat : Nat) : Int) = limit := by omega
  have hwlim : wrap64 (order + mx) = order + mx :=
    wrap64_eq_self _ (by omega) (by omega)
  have hwlim1 : wrap64 limit = limit := by
    rw [hlimdef]
    exact hwlim
  have hwlim2 : wrap64 (limit + 1) = limit + 1 := by
    rw [hlimdef]
    exact wrap64_eq_self _ (by omega) (by omega)
  -- the two filled-table invariants (the fill is deterministic)
  obtain ⟨dp, parent, hfill, huntS, hgoodS⟩ :=
    fillLoop_semantic SZ limit hSZpos hlimMI limit.toNat (by omega)
  obtain ⟨dp', parent', hfill', hdp0', huntT', hbound', hstruct'⟩ :=
    fillLoop_structural SZ limit (fun s hs => le_of_lt (hSZpos s hs)) limit.toNat
      (by omega)
  rw [hfill] at hfill'
  obtain ⟨hdpe, hpare⟩ := Prod.mk.injEq .. ▸ (Option.some.inj hfill')
  subst hdpe
  subst hpare
  -- a reachable total in the scanned window
  obtain ⟨k, hk1, hk2, hk3⟩ := exists_near_multiple order mx (by omega) hmx1
  have hrep : ∀ x ∈ List.replicate k mx, x ∈ SZ := by
    intro x hx
    rw [List.eq_of_mem_replicate hx]
    exact (hmem mx).2 hmxmem
  have hrepsum : (List.replicate k mx).sum = (k : Int) * mx := by
    rw [List.sum_replicate, nsmul_eq_mul]
  have ht0le : (k : Int) * mx ≤ limit := by omega
  have ht0nn : 0 ≤ (k : Int) * mx := by positivity
  have ht0 : dp ((k : Int) * mx).toNat ≠ MaxInt32 := by
    refine ((hgoodS ((k : Int) * mx).toNat (by omega)).2 (List.replicate k mx) hrep ?_).1
    rw [hrepsum]
    omega
  -- the least reachable total at or beyond the order
  have hPex : ∃ n : Nat, dp (order + (n : Int)).toNat ≠ MaxInt32 ∧
      order + (n : Int) ≤ limit := by
    refine ⟨((k : Int) * mx - order).toNat, ?_, ?_⟩
    · have : order + ((((k : Int) * mx - order).toNat : Nat) : Int) = (k : Int) * mx := by
        omega
      rw [this]
      exact ht0
    · omega
  classical
  set nf := Nat.find hPex with hnf
  obtain ⟨hfnd1, hfnd2⟩ := Nat.find_spec hPex
  set t := order + (nf : Int) with htdef
  have hleast : ∀ u : Int, order ≤ u → u < t → dp u.toNat = MaxInt32 := by
    intro u hu1 hu2
    have hj : ((u - order).toNat : Int) = u - order := by omega
    have hjlt : (u - order).toNat < nf := by omega
    have := Nat.find_min hPex hjlt
    by_contra hcon
    apply this
    constructor
    · have : order + (((u - order).toNat : Nat) : Int) = u := by omega
      rw [this]
      exact hcon
    · omega
  have ht1 : order ≤ t := by omega
  have htle : t ≤ limit := hfnd2
  have htnn : 0 ≤ t := by omega
  -- the selection loop returns exactly (t, dp t)
  have hfuelcast : (((limit - order + 1).toNat : Nat) : Int) = limit - order + 1 := by
    omega
  have hscan : scanLoop dp (limit - order + 1).toNat order (-1, MaxInt32) =
      (t, dp t.toNat) :=
    scanLoop_least dp (limit - order + 1).toNat order t (by omega) ht1 (by omega)
      hfnd1 hleast
  -- backtracking from t
  have hdpnn : ∀ j : Nat, dp j ≠ MaxInt32 → 0 ≤ dp j := fun j hj => (hbound' j hj).1
  have hdptle : dp t.toNat ≤ t := by
    have := (hbound' t.toNat hfnd1).2
    omega
  obtain ⟨m, chain, hbt, hchmem, hchsum, hchlen, hitems, hcount, hget⟩ :=
    backtrackLoop_spec SZ limit dp parent hdp0' hdpnn hstruct'
      (limit + 2).toNat t htnn htle hfnd1 (by omega) []
  -- the packed Result
  refine ⟨⟨m, t, dp t.toNat, t - order⟩, ?_, ?_, ht1, rfl, ?_, ?_, ?_, ?_, ?_, ?_⟩
  · -- Calculate reduces along the computed branches
    rw [Calculate.eq_def]
    rw [if_neg (by omega : ¬ order ≤ 0), if_neg h2]
    simp only [← hSZ, ← hmx, hwlim, hwlim1, hwlim2, ← hlimdef]
    rw [if_neg (by omega : ¬ limit + 1 ≤ 0), hfill]
    simp only [hscan]
    rw [if_neg (by omega : ¬ t = -1), hbt]
  · refine ⟨chain, ?_, hchsum, hchlen, ?_⟩
    · intro x hx
      exact (hmem x).1 (hchmem x hx)
    · intro k2
      show mapGet m k2 = (chain.count k2 : Int)
      rw [hget k2]
      simp [mapGet]
  · show itemsSum m = t
    rw [hitems]
    simp
  · show countSum m = dp t.toNat
    rw [hcount]
    simp
  · intro l hl hlsum
    show t ≤ l.sum
    have hlS : ∀ x ∈ l, x ∈ SZ := fun x hx => (hmem x).2 (hl x hx)
    by_cases hls : l.sum ≤ limit
    · have hsnn : 0 ≤ l.sum := by omega
      have hdpl : dp l.sum.toNat ≠ MaxInt32 := by
        refine ((hgoodS l.sum.toNat (by omega)).2 l hlS ?_).1
        omega
      by_contra hcon
      exact hdpl (hleast l.sum hlsum (by omega))
    · omega
  · intro l hl hlsum
    show dp t.toNat ≤ (l.length : Int)
    have hlsum2 : l.sum = t := hlsum
    have hlS : ∀ x ∈ l, x ∈ SZ := fun x hx => (hmem x).2 (hl x hx)
    exact ((hgoodS t.toNat (by omega)).2 l hlS (by omega)).2
  · refine ⟨mx, hmxmem, hmxub, ?_⟩
    show t ≤ order + mx
    omega
  · intro hmnil
    have hm2 : m = [] := hmnil
    rw [hm2] at hcount
    simp only [countSum_nil] at hcount
    have hdpt1 : 1 ≤ dp t.toNat := by
      have h01 : 1 ≤ t.toNat := by omega
      have := (hstruct' t.toNat h01 (by omega) hfnd1).2.2.2
      have := hdpnn _ this.1
      omega
    omega

/-- Splitting the sum and length of a list drawn from three distinct
values by occurrence counts. -/
theorem sum_count_triple (a b c : Int) (hab : a ≠ b) (hac : a ≠ c) (hbc : b ≠ c) :
    ∀ l : List Int, (∀ x ∈ l, x = a ∨ x = b ∨ x = c) →
      l.sum = a * (l.count a : Int) + b * (l.count b : Int) + c * (l.count c : Int) ∧
      (l.length : Int) = (l.count a : Int) + (l.count b : Int) + (l.count c : Int) := by
  intro l
  induction l with
  | nil => simp
  | cons x t ih =>
    intro h
    obtain ⟨ih1, ih2⟩ := ih (fun y hy => h y (List.mem_cons_of_mem _ hy))
    have hx := h x (by simp)
    simp only [List.sum_cons, List.length_cons, List.count_cons]
    rcases hx with rfl | rfl | rfl
    · rw [if_pos (show (x == x) = true by simp),
        if_neg (show ¬ ((x == b) = true) by simp [hab]),
        if_neg (show ¬ ((x == c) = true) by simp [hac])]
      push_cast
      constructor
      · rw [ih1]; ring
      · omega
    · rw [if_neg (show ¬ ((x == a) = true) by simp [Ne.symm hab]),
        if_pos (show (x == x) = true by simp),
        if_neg (show ¬ ((x == c) = true) by simp [hbc])]
      push_cast
      constructor
      · rw [ih1]; ring
      · omega
    · rw [if_neg (show ¬ ((x == a) = true) by simp [Ne.symm hac]),
        if_neg (show ¬ ((x == b) = true) by simp [Ne.symm hbc]),
        if_pos (show (x == x) = true by simp)]
      push_cast
      constructor
      · rw [ih1]; ring
      · omega

/-- C1 amended: for a positive order, non-empty strictly positive sizes
and order plus any size below 2147483647 (so that no true pack count
collides with the MaxInt32 infinity sentinel of the dp table),
Calculate returns an optimal Result: TotalItems is the least total at
or above the order reachable by a multiset of packs, and TotalPacks is
the least number of packs among multisets reaching that exact total. -/
theorem calculate_optimal (order : Int) (packSizes : List Int)
    (h1 : 0 < order) (h2 : packSizes ≠ []) (h3 : ∀ s ∈ packSizes, 0 < s)
    (h4 : ∀ s ∈ packSizes, order + s < 2147483647) :
    ∃ r : Result, Calculate order packSizes = some r ∧
      order ≤ r.TotalItems ∧
      (∃ l : List Int, (∀ x ∈ l, x ∈ packSizes) ∧ l.sum = r.TotalItems ∧
        (l.length : Int) = r.TotalPacks) ∧
      (∀ l : List Int, (∀ x ∈ l, x ∈ packSizes) → order ≤ l.sum →
        r.TotalItems ≤ l.sum) ∧
      (∀ l : List Int, (∀ x ∈ l, x ∈ packSizes) → l.sum = r.TotalItems →
        r.TotalPacks ≤ (l.length : Int)) := by
  obtain ⟨r, hc, ⟨chain, hm, hs, hl, _⟩, ho, _, _, _, hmin1, hmin2, _, _⟩ :=
    calculate_main order packSizes h1 h2 h3 h4
  exact ⟨r, hc, ho, ⟨chain, hm, hs, hl⟩, hmin1, hmin2⟩

/-- Witness for calculate_optimal at the rule-priority example of the
spec: quantity 10 with sizes 3 and 5. -/
theorem calculate_optimal_witness :
    ∃ r : Result, Calculate 10 [3, 5] = some r ∧
      (10 : Int) ≤ r.TotalItems ∧
      (∃ l : List Int, (∀ x ∈ l, x ∈ [(3 : Int), 5]) ∧ l.sum = r.TotalItems ∧
        (l.length : Int) = r.TotalPacks) ∧
      (∀ l : List Int, (∀ x ∈ l, x ∈ [(3 : Int), 5]) → 10 ≤ l.sum →
        r.TotalItems ≤ l.sum) ∧
      (∀ l : List Int, (∀ x ∈ l, x ∈ [(3 : Int), 5]) → l.sum = r.TotalItems →
        r.TotalPacks ≤ (l.length : Int)) :=
  calculate_optimal 10 [3, 5] (by decide) (by decide) (by decide) (by decide)

/-- C2 amended: under the same precondition and sentinel bound,
Calculate returns a Result with TotalItems at least the order and
non-negative Waste equal to TotalItems minus the order; a reachable
total always exists in the scanned window up to order plus the maximal
size, and the returned Result is never the empty one. -/
theorem calculate_feasible (order : Int) (packSizes : List Int)
    (h1 : 0 < order) (h2 : packSizes ≠ []) (h3 : ∀ s ∈ packSizes, 0 < s)
    (h4 : ∀ s ∈ packSizes, order + s < 2147483647) :
    ∃ r : Result, Calculate order packSizes = some r ∧
      order ≤ r.TotalItems ∧
      r.Waste = r.TotalItems - order ∧ 0 ≤ r.Waste ∧
      (∃ mx ∈ packSizes, (∀ s ∈ packSizes, s ≤ mx) ∧
        ∃ l : List Int, (∀ x ∈ l, x ∈ packSizes) ∧ order ≤ l.sum ∧
          l.sum ≤ order + mx) ∧
      r.PackCounts ≠ [] := by
  obtain ⟨r, hc, ⟨chain, hm, hs, _, _⟩, ho, hw, _, _, _, _, ⟨mx, hmx1, hmx2, hmx3⟩, hne⟩ :=
    calculate_main order packSizes h1 h2 h3 h4
  refine ⟨r, hc, ho, hw, by omega, ⟨mx, hmx1, hmx2, chain, hm, ?_, ?_⟩, hne⟩
  · omega
  · omega

/-- Witness for calculate_feasible at the overfill example of the spec:
quantity 4 with sizes 3 and 5. -/
theorem calculate_feasible_witness :
    ∃ r : Result, Calculate 4 [3, 5] = some r ∧
      (4 : Int) ≤ r.TotalItems ∧
      r.Waste = r.TotalItems - 4 ∧ 0 ≤ r.Waste ∧
      (∃ mx ∈ [(3 : Int), 5], (∀ s ∈ [(3 : Int), 5], s ≤ mx) ∧
        ∃ l : List Int, (∀ x ∈ l, x ∈ [(3 : Int), 5]) ∧ 4 ≤ l.sum ∧
          l.sum ≤ 4 + mx) ∧
      r.PackCounts ≠ [] :=
  calculate_feasible 4 [3, 5] (by decide) (by decide) (by decide) (by decide)

/-- C3: every Result that Calculate actually returns is internally
consistent: the entries of its pack-count map multiply out to
TotalItems and their counts add up to TotalPacks, for every input. -/
theorem calculate_consistent (order : Int) (packSizes : List Int) (r : Result)
    (h : Calculate order packSizes = some r) :
    itemsSum r.PackCounts = r.TotalItems ∧ countSum r.PackCounts = r.TotalPacks := by
  by_cases ho : order ≤ 0
  · rw [Calculate.eq_def, if_pos ho] at h
    obtain rfl := Option.some.inj h
    decide
  · by_cases hemp : packSizes = []
    · rw [Calculate.eq_def, if_neg ho, if_pos hemp] at h
      obtain rfl := Option.some.inj h
      decide
    · set SZ := List.insertionSort (· ≤ ·) packSizes with hSZ
      set mx := SZ.getLastD 0 with hmx
      set limit := wrap64 (order + mx) with hlimdef
      by_cases hguard : wrap64 (limit + 1) ≤ 0
      · have hnone : Calculate order packSizes = none := by
          rw [Calculate.eq_def, if_neg ho, if_neg hemp]
          simp only [← hSZ, ← hmx, ← hlimdef]
          rw [if_pos hguard]
        rw [hnone] at h
        simp at h
      · rcases hfl : fillLoop SZ limit limit.toNat with _ | st
        · have hnone : Calculate order packSizes = none := by
            rw [Calculate.eq_def, if_neg ho, if_neg hemp]
            simp only [← hSZ, ← hmx, ← hlimdef]
            rw [if_neg hguard, hfl]
          rw [hnone] at h
          simp at h
        · obtain ⟨dp, parent⟩ := st
          rcases hscn : scanLoop dp (limit - order + 1).toNat order (-1, MaxInt32)
            with ⟨b, p⟩
          by_cases hb : b = -1
          · have hcalc : Calculate order packSizes = some emptyResult := by
              rw [Calculate.eq_def, if_neg ho, if_neg hemp]
              simp only [← hSZ, ← hmx, ← hlimdef]
              rw [if_neg hguard, hfl]
              simp only [hscn]
              rw [if_pos hb]
            rw [hcalc] at h
            obtain rfl := Option.some.inj h
            decide
          · rcases scanLoop_sound dp ((limit - order + 1).toNat) order (by omega) b p
                hscn with hbn | ⟨hb1, hb2, hb3, hb4⟩
            · exact absurd hbn hb
            · have hl1 : 1 ≤ limit := by omega
              have hble : b ≤ limit := by omega
              have hnn := fillLoop_sizes_nonneg SZ limit (dp, parent) hfl hl1
              obtain ⟨dp', parent', hfl', hdp0', hunt', hbound', hstruct'⟩ :=
                fillLoop_structural SZ limit hnn limit.toNat (by omega)
              rw [hfl] at hfl'
              obtain ⟨hdpe, hpare⟩ := Prod.mk.injEq .. ▸ (Option.some.inj hfl')
              subst hdpe
              subst hpare
              have hfuelbt : dp b.toNat ≤ (((limit + 2).toNat : Nat) : Int) := by
                have := (hbound' b.toNat hb3).2
                omega
              obtain ⟨m, chain, hbt, _, _, _, hitems, hcount, _⟩ :=
                backtrackLoop_spec SZ limit dp parent hdp0'
                  (fun j hj => (hbound' j hj).1) hstruct'
                  (limit + 2).toNat b (by omega) hble hb3 hfuelbt []
              have hcalc : Calculate order packSizes = some ⟨m, b, p, b - order⟩ := by
                rw [Calculate.eq_def, if_neg ho, if_neg hemp]
                simp only [← hSZ, ← hmx, ← hlimdef]
                rw [if_neg hguard, hfl]
                simp only [hscn]
                rw [if_neg hb, hbt]
              rw [hcalc] at h
              obtain rfl := Option.some.inj h
              constructor
              · show itemsSum m = b
                rw [hitems]
                simp
              · show countSum m = p
                rw [hcount, hb4]
                simp

/-- Witness for calculate_consistent at the tie-break example of the
spec: quantity 6 with sizes 1, 2, 3 yields two packs of 3. -/
theorem calculate_consistent_witness :
    itemsSum (⟨[(3, 2)], 6, 2, 0⟩ : Result).PackCounts =
        (⟨[(3, 2)], 6, 2, 0⟩ : Result).TotalItems ∧
      countSum (⟨[(3, 2)], 6, 2, 0⟩ : Result).PackCounts =
        (⟨[(3, 2)], 6, 2, 0⟩ : Result).TotalPacks :=
  calculate_consistent 6 [1, 2, 3] ⟨[(3, 2)], 6, 2, 0⟩ (by decide)

/-- C9 amended: Calculate is total for every order and every non-empty
list of strictly positive sizes, provided order + size stays below
MaxInt64 = 9223372036854775807 for every size (so that neither
limit = order + maxSize nor the slice length limit + 1 wraps in int64):
the guarded table accesses all stay in range, the backtracking walk
terminates, and a Result is always returned (none, the model of a
panic, is unreachable). Without the bound the makeslice panic at the
wrapped length is reachable. -/
theorem calculate_total (order : Int) (packSizes : List Int)
    (h2 : packSizes ≠ []) (h3 : ∀ s ∈ packSizes, 0 < s)
    (h4 : ∀ s ∈ packSizes, order + s < 9223372036854775807) :
    ∃ r : Result, Calculate order packSizes = some r := by
  by_cases ho : order ≤ 0
  · exact ⟨emptyResult, by rw [Calculate.eq_def, if_pos ho]⟩
  · set SZ := List.insertionSort (· ≤ ·) packSizes with hSZ
    have hperm : SZ.Perm packSizes := List.perm_insertionSort _ packSizes
    have hSZpos : ∀ s ∈ SZ, 0 < s := fun s hs => h3 s (hperm.mem_iff.1 hs)
    obtain ⟨hmxmem, hmxub⟩ := maxSize_spec packSizes h2
    set mx := SZ.getLastD 0 with hmx
    have hmx1 : 1 ≤ mx := h3 mx hmxmem
    have hmx64 : order + mx < 9223372036854775807 := h4 mx hmxmem
    set limit := order + mx with hlimdef
    have hlim2 : 2 ≤ limit := by omega
    have hwlim : wrap64 (order + mx) = order + mx :=
      wrap64_eq_self _ (by omega) (by omega)
    have hwlim1 : wrap64 limit = limit := by
      rw [hlimdef]
      exact hwlim
    have hwlim2 : wrap64 (limit + 1) = limit + 1 := by
      rw [hlimdef]
      exact wrap64_eq_self _ (by omega) (by omega)
    obtain ⟨dp, parent, hfill, hdp0, hunt, hbound, hstruct⟩ :=
      fillLoop_structural SZ limit (fun s hs => le_of_lt (hSZpos s hs)) limit.toNat
        (by omega)
    rcases hscn : scanLoop dp (limit - order + 1).toNat order (-1, MaxInt32)
      with ⟨b, p⟩
    by_cases hb : b = -1
    · refine ⟨emptyResult, ?_⟩
      rw [Calculate.eq_def, if_neg ho, if_neg h2]
      simp only [← hSZ, ← hmx, hwlim, hwlim1, hwlim2, ← hlimdef]
      rw [if_neg (by omega : ¬ limit + 1 ≤ 0), hfill]
      simp only [hscn]
      rw [if_pos hb]
    · rcases scanLoop_sound dp ((limit - order + 1).toNat) order (by omega) b p
          hscn with hbn | ⟨hb1, hb2, hb3, hb4⟩
      · exact absurd hbn hb
      · have hble : b ≤ limit := by omega
        obtain ⟨m, chain, hbt, _⟩ :=
          backtrackLoop_spec SZ limit dp parent hdp0
            (fun j hj => (hbound j hj).1) hstruct
            (limit + 2).toNat b (by omega) hble hb3
            (by have := (hbound b.toNat hb3).2; omega) []
        refine ⟨⟨m, b, p, b - order⟩, ?_⟩
        rw [Calculate.eq_def, if_neg ho, if_neg h2]
        simp only [← hSZ, ← hmx, hwlim, hwlim1, hwlim2, ← hlimdef]
        rw [if_neg (by omega : ¬ limit + 1 ≤ 0), hfill]
        simp only [hscn]
        rw [if_neg hb, hbt]

/-- C9 counterexample: at the largest representable order, MaxInt64,
with the single size 1, the claimed precondition (a non-empty list of
strictly positive sizes) holds, yet limit = order + maxSize wraps
negative in int64 and make of the dp slice panics, modeled as none:
the unrestricted no-panic claim is false of the program. -/
theorem calculate_total_counterexample :
    (([(1 : Int)] ≠ []) ∧ (∀ s ∈ [(1 : Int)], 0 < s)) ∧
      Calculate 9223372036854775807 [1] = none :=
  ⟨⟨by decide, by decide⟩, by decide⟩

/-- Witness for calculate_total at quantity 7 with sizes 2 and 3. -/
theorem calculate_total_witness :
    ∃ r : Result, Calculate 7 [2, 3] = some r :=
  calculate_total 7 [2, 3] (by decide) (by decide) (by decide)

/-- If every total in the scanned window is marked unreachable, the
selection loop ends with the initial best of -1. -/
theorem scanLoop_all_sentinel (dp : Nat → Int) :
    ∀ (fuel : Nat) (items : Int),
      (∀ u : Int, items ≤ u → u < items + fuel → dp u.toNat = MaxInt32) →
      scanLoop dp fuel items (-1, MaxInt32) = (-1, MaxInt32) := by
  intro fuel
  induction fuel with
  | zero =>
    intro items _
    rfl
  | succ fuel ih =>
    intro items h
    simp only [scanLoop]
    rw [if_neg (fun hne => hne (h items (le_refl _) (by push_cast; omega)))]
    exact ih (items + 1) (fun u hu1 hu2 => h u (by omega) (by push_cast at hu2 ⊢; omega))

/-- Characterization of the dp table the fill builds for the single
size 1: every processed index below MaxInt32 holds its own value (one
pack of size one per item), while processed indices at or beyond
MaxInt32 keep the sentinel, since the write guard refuses a value that
would equal the infinity marker. -/
theorem fillLoop_one (L : Int) (_hL : 1 ≤ L) :
    ∀ m : Nat, (m : Int) ≤ L →
      ∃ dp parent, fillLoop [1] L m = some (dp, parent) ∧
        ∀ j : Nat, dp j =
          if j = 0 then 0
          else if j ≤ m ∧ (j : Int) < MaxInt32 then (j : Int) else MaxInt32 := by
  have hMI : MaxInt32 = 2147483647 := rfl
  intro m
  induction m with
  | zero =>
    intro _
    refine ⟨_, _, rfl, ?_⟩
    intro j
    by_cases h0 : j = 0
    · simp [h0]
    · rw [if_neg h0, if_neg h0, if_neg (by omega : ¬ (j ≤ 0 ∧ (j : Int) < MaxInt32))]
  | succ m ihm =>
    intro hm1
    obtain ⟨dp, parent, heq, hform⟩ := ihm (by omega)
    have hidx : ((((m + 1 : Nat) : Int)) - 1).toNat = m := by omega
    have hc1 : (1 : Int) ≤ ((m + 1 : Nat) : Int) := by push_cast; omega
    have hg : (0 : Int) ≤ ((m + 1 : Nat) : Int) - 1 ∧ ((m + 1 : Nat) : Int) - 1 ≤ L := by
      constructor <;> [push_cast; push_cast] <;> omega
    by_cases hbig : ((m : Nat) : Int) < MaxInt32
    · have hdpm : dp m = (m : Int) := by
        rw [hform m]
        by_cases h0 : m = 0
        · simp [h0]
        · rw [if_neg h0, if_pos ⟨le_refl m, hbig⟩]
      have hsent : ¬ (dp ((((m + 1 : Nat) : Int)) - 1).toNat = MaxInt32) := by
        rw [hidx, hdpm]
        omega
      have hdpm1 : dp (m + 1) = MaxInt32 := by
        rw [hform (m + 1)]
        rw [if_neg (by omega : ¬ (m + 1 = 0)),
          if_neg (by omega : ¬ (m + 1 ≤ m ∧ ((m + 1 : Nat) : Int) < MaxInt32))]
      by_cases hw : (m : Int) + 1 < MaxInt32
      · refine ⟨fun j => if j = m + 1 then dp ((((m + 1 : Nat) : Int)) - 1).toNat + 1
            else dp j,
          fun j => if j = m + 1 then 1 else parent j, ?_, ?_⟩
        · have hstep : fillLoop [1] L (m + 1) = innerLoop L (m + 1) [1] (dp, parent) := by
            simp only [fillLoop, heq]
            rfl
          rw [hstep]
          simp only [innerLoop]
          rw [if_pos hc1, if_pos hg, if_neg hsent,
            if_pos (by rw [hidx, hdpm, hdpm1]; omega)]
        · intro j
          dsimp only
          rw [hidx, hdpm, hform j]
          split_ifs <;> omega
      · refine ⟨dp, parent, ?_, ?_⟩
        · have hstep : fillLoop [1] L (m + 1) = innerLoop L (m + 1) [1] (dp, parent) := by
            simp only [fillLoop, heq]
            rfl
          rw [hstep]
          simp only [innerLoop]
          rw [if_pos hc1, if_pos hg, if_neg hsent,
            if_neg (by rw [hidx, hdpm, hdpm1]; omega)]
        · intro j
          rw [hform j]
          split_ifs <;> omega
    · have hdpm : dp ((((m + 1 : Nat) : Int)) - 1).toNat = MaxInt32 := by
        rw [hidx, hform m]
        rw [if_neg (by omega : ¬ (m = 0)),
          if_neg (by omega : ¬ (m ≤ m ∧ ((m : Nat) : Int) < MaxInt32))]
      refine ⟨dp, parent, ?_, ?_⟩
      · have hstep : fillLoop [1] L (m + 1) = innerLoop L (m + 1) [1] (dp, parent) := by
          simp only [fillLoop, heq]
          rfl
        rw [hstep]
        simp only [innerLoop]
        rw [if_pos hc1, if_pos hg, if_pos hdpm]
      · intro j
        rw [hform j]
        split_ifs <;> omega

/-- Calculate at order 2147483647 with the single pack size 1 returns
the empty Result: the only feasible totals in the scanned window need
at least 2147483647 packs, a count the dp fill cannot record because it
would equal the MaxInt32 sentinel, so the whole window looks
unreachable to the selection loop. -/
theorem calculate_one_overflow (order : Int) (hbig : MaxInt32 ≤ order)
    (hsm : order ≤ 9223372036854775805) :
    Calculate order [1] = some emptyResult := by
  have hMI : MaxInt32 = 2147483647 := rfl
  have ho : ¬ order ≤ 0 := by omega
  have hsort : List.insertionSort (· ≤ ·) [(1 : Int)] = [1] := by decide
  have hlast : ([(1 : Int)] : List Int).getLastD 0 = 1 := rfl
  have hw1 : wrap64 (order + 1) = order + 1 :=
    wrap64_eq_self _ (by omega) (by omega)
  have hw2 : wrap64 (order + 1 + 1) = order + 1 + 1 :=
    wrap64_eq_self _ (by omega) (by omega)
  obtain ⟨dp, parent, hfill, hform⟩ :=
    fillLoop_one (order + 1) (by omega) ((order + 1).toNat) (by omega)
  have hscan : scanLoop dp ((order + 1 - order + 1)).toNat order (-1, MaxInt32) =
      (-1, MaxInt32) := by
    refine scanLoop_all_sentinel dp _ order ?_
    intro u hu1 hu2
    rw [hform u.toNat]
    rw [if_neg (by omega : ¬ (u.toNat = 0)),
      if_neg (by omega : ¬ (u.toNat ≤ (order + 1).toNat ∧
        ((u.toNat : Nat) : Int) < MaxInt32))]
  rw [Calculate.eq_def, if_neg ho, if_neg (by decide : ¬ ([(1 : Int)] = []))]
  simp only [hsort, hlast, hw1, hw2]
  rw [if_neg (by omega : ¬ (order + 1 + 1 ≤ 0)), hfill]
  simp only [hscan]
  rw [if_pos trivial]

/-- Calculate at order 2147483647 with the single pack size 1 returns
the empty Result: every feasible total in the scanned window needs at
least 2147483647 packs, a count the dp fill cannot record because it
would equal the MaxInt32 sentinel, so the whole window looks
unreachable to the selection loop. -/
theorem calculate_big_one : Calculate 2147483647 [1] = some emptyResult :=
  calculate_one_overflow 2147483647 (by decide) (by decide)

/-- C1 counterexample: at order 2147483647 with the single size 1 all
preconditions of the claim hold, yet Calculate returns the empty
Result, whose TotalItems 0 is not the minimal reachable total at or
above the order (it is not even at or above the order). -/
theorem calculate_optimal_counterexample :
    (0 < (2147483647 : Int) ∧ ([(1 : Int)] ≠ []) ∧ (∀ s ∈ [(1 : Int)], 0 < s)) ∧
      Calculate 2147483647 [1] = some emptyResult ∧
      emptyResult.TotalItems = 0 ∧
      ¬ (2147483647 : Int) ≤ emptyResult.TotalItems :=
  ⟨⟨by decide, by decide, by decide⟩, calculate_big_one, rfl, by decide⟩

/-- C2 counterexample: at order 2147483647 with the single size 1 the
claimed precondition holds, yet Calculate returns the empty Result,
with no entries and TotalItems below the order. -/
theorem calculate_feasible_counterexample :
    (0 < (2147483647 : Int) ∧ ([(1 : Int)] ≠ []) ∧ (∀ s ∈ [(1 : Int)], 0 < s)) ∧
      Calculate 2147483647 [1] = some emptyResult ∧
      emptyResult.PackCounts = [] ∧
      emptyResult.TotalItems < 2147483647 :=
  ⟨⟨by decide, by decide, by decide⟩, calculate_big_one, rfl, by decide⟩

/-- C4: Calculate at quantity 500000 with sizes 23, 31 and 53 returns
exactly the pack counts 23 to 2, 31 to 7 and 53 to 9429 (and no other
entry), with TotalItems 500000, TotalPacks 9438, and zero Waste. The
proof derives the totals from optimality and pins the counts by the
uniqueness of the optimal multiset. -/
theorem calculate_given_scenario :
    ∃ r : Result, Calculate 500000 [23, 31, 53] = some r ∧
      mapGet r.PackCounts 23 = 2 ∧ mapGet r.PackCounts 31 = 7 ∧
      mapGet r.PackCounts 53 = 9429 ∧
      (∀ k : Int, k ≠ 23 → k ≠ 31 → k ≠ 53 → mapGet r.PackCounts k = 0) ∧
      r.TotalItems = 500000 ∧ r.TotalPacks = 9438 ∧ r.Waste = 0 := by
  obtain ⟨r, hc, ⟨chain, hchm, hchs, hchl, hchg⟩, ho, hw, _, _, hmin1, hmin2, _, _⟩ :=
    calculate_main 500000 [23, 31, 53] (by decide) (by decide) (by decide) (by decide)
  have hrefmem : ∀ x ∈ List.replicate 2 (23 : Int) ++ List.replicate 7 31 ++
      List.replicate 9429 53, x ∈ [(23 : Int), 31, 53] := by
    intro x hx
    rcases List.mem_append.1 hx with hx1 | hx2
    · rcases List.mem_append.1 hx1 with hx3 | hx4
      · rw [List.eq_of_mem_replicate hx3]
        simp
      · rw [List.eq_of_mem_replicate hx4]
        simp
    · rw [List.eq_of_mem_replicate hx2]
      simp
  have hrefsum : (List.replicate 2 (23 : Int) ++ List.replicate 7 31 ++
      List.replicate 9429 53).sum = 500000 := by
    rw [List.sum_append, List.sum_append, List.sum_replicate, List.sum_replicate,
      List.sum_replicate, nsmul_eq_mul, nsmul_eq_mul, nsmul_eq_mul]
    norm_num
  have hreflen : ((List.replicate 2 (23 : Int) ++ List.replicate 7 31 ++
      List.replicate 9429 53).length : Int) = 9438 := by
    rw [List.length_append, List.length_append, List.length_replicate,
      List.length_replicate, List.length_replicate]
    norm_num
  have hTle : r.TotalItems ≤ 500000 := by
    have := hmin1 _ hrefmem (le_of_eq hrefsum.symm)
    omega
  have hT : r.TotalItems = 500000 := le_antisymm hTle ho
  have hlb : ∀ l : List Int, (∀ x ∈ l, x ∈ [(23 : Int), 31, 53]) →
      l.sum = 500000 → (9438 : Int) ≤ (l.length : Int) := by
    intro l hm hs
    have hm3 : ∀ x ∈ l, x = 23 ∨ x = 31 ∨ x = 53 := by
      intro x hx
      simpa using hm x hx
    obtain ⟨h1, h2⟩ := sum_count_triple 23 31 53 (by decide) (by decide) (by decide) l hm3
    omega
  have hP : r.TotalPacks = 9438 := by
    have hub := hmin2 _ hrefmem (hrefsum.trans hT.symm)
    have hchainlb := hlb chain hchm (hchs.trans hT)
    omega
  have hm3 : ∀ x ∈ chain, x = 23 ∨ x = 31 ∨ x = 53 := by
    intro x hx
    simpa using hchm x hx
  obtain ⟨h1, h2⟩ := sum_count_triple 23 31 53 (by decide) (by decide) (by decide)
    chain hm3
  have hcounts : (chain.count 23 : Int) = 2 ∧ (chain.count 31 : Int) = 7 ∧
      (chain.count 53 : Int) = 9429 := by omega
  refine ⟨r, hc, ?_, ?_, ?_, ?_, hT, hP, by omega⟩
  · rw [hchg 23]
    omega
  · rw [hchg 31]
    omega
  · rw [hchg 53]
    omega
  · intro k hk1 hk2 hk3
    rw [hchg k]
    have hnotin : k ∉ chain := by
      intro hkc
      rcases hm3 k hkc with h | h | h
      · exact hk1 h
      · exact hk2 h
      · exact hk3 h
    rw [List.count_eq_zero_of_not_mem hnotin]
    rfl
